import Mathlib

/-!
Verification of the permutation-test engine specified for the BIOF085
repository.  The repository's notebook `docs/04_python_stat.py` contains the
reference demonstration (observed difference of group means, a loop of label
shuffles building a null distribution, and an empirical p-value); the
specification re-architects this as a standalone `PermutationTestEngine.run`
operating over many outcome columns with explicit error handling and an
injectable random source.  The definitions below embed that engine; rational
numbers stand for the real-valued outcome data, `Option` encodes missing
values, and the random source is an explicit stream of naturals.
-/

namespace PermTest

/-- Modelled from the spec: the two group categories of a sample
(the engine itself is not present under `src/`; the spec's §3 data model
requires exactly two non-missing categories, called A and B). -/
inductive Category where
  | A
  | B
deriving DecidableEq

/-- Modelled from the spec: a raw input label, which is one of the two
categories or some other (invalid / missing) value that the engine must
reject with `InvalidInputError`. -/
inductive RawLabel where
  | A
  | B
  | other
deriving DecidableEq

/-- Swap which category is designated A and which is B. -/
def Category.swap : Category → Category
  | .A => .B
  | .B => .A

/-- Swap the two categories on raw labels, leaving other values alone. -/
def RawLabel.swap : RawLabel → RawLabel
  | .A => .B
  | .B => .A
  | .other => .other

/-- Decode a raw label sequence into a category sequence; fails if any
label is neither A nor B. -/
def decodeLabels : List RawLabel → Option (List Category)
  | [] => some []
  | .A :: t => (decodeLabels t).map (fun ls => .A :: ls)
  | .B :: t => (decodeLabels t).map (fun ls => .B :: ls)
  | .other :: _ => none

/-- Mean of a list of rationals; undefined (none) on the empty list. -/
def mean : List ℚ → Option ℚ
  | [] => none
  | x :: t => some ((x :: t).sum / (((x :: t).length : Nat) : ℚ))

/-- Modelled from the spec: the non-missing outcome values of the
observations carrying a given group label (per-column, per-group
missing-value exclusion). -/
def groupVals (c : Category) (ls : List Category) (ys : List (Option ℚ)) :
    List ℚ :=
  (ls.zip ys).filterMap (fun p => if p.1 = c then p.2 else none)

/-- Modelled from the spec: the group-difference statistic
mean(outcome | label = A) − mean(outcome | label = B); undefined when a
group has zero non-missing values. -/
def stat (ls : List Category) (ys : List (Option ℚ)) : Option ℚ :=
  match mean (groupVals .A ls ys), mean (groupVals .B ls ys) with
  | some a, some b => some (a - b)
  | _, _ => none

/-- A random source: an infinite stream of naturals, one per draw. -/
abbrev Rng := Nat → Nat

/-- Advance a random stream past its first draw. -/
def shiftRng (g : Rng) : Rng := fun n => g (n + 1)

/-- Advance a random stream past its first `k` draws. -/
def shiftRngBy (g : Rng) (k : Nat) : Rng := fun n => g (n + k)

/-- Fisher–Yates-style extraction shuffle with explicit fuel: at each step
draw an index uniformly below the remaining length, move that element to
the front of the output, and continue on the rest. -/
def shuffleN (g : Rng) : Nat → List α → List α
  | 0, _ => []
  | n + 1, l =>
    match l[g 0 % l.length]? with
    | none => []
    | some a => a :: shuffleN (shiftRng g) n (l.eraseIdx (g 0 % l.length))

/-- Modelled from the spec: one uniform-random shuffle of a label
sequence, consuming one draw of the stream per remaining position. -/
def shuffle (g : Rng) (l : List α) : List α :=
  shuffleN g l.length l

/-- Modelled from the spec: the sequence of permuted label vectors, one
per simulation round, each round drawn independently from the stream
(one shuffle per round, not one per column). -/
def drawPerms (g : Rng) (ls : List Category) : Nat → List (List Category)
  | 0 => []
  | n + 1 => shuffle g ls :: drawPerms (shiftRngBy g ls.length) ls n

/-- One step of a 32-bit linear congruential generator. -/
def lcgNext (s : Nat) : Nat := (1664525 * s + 1013904223) % 4294967296

/-- The `n`-th draw of the linear congruential generator seeded at `seed`. -/
def lcgIter (seed : Nat) : Nat → Nat
  | 0 => lcgNext seed
  | n + 1 => lcgNext (lcgIter seed n)

/-- A seedable pseudo-random stream, as the spec's caller-supplied
seedable generator. -/
def lcgStream (seed : Nat) : Rng := fun n => lcgIter seed n

/-- Identifier of an outcome column. -/
abbrev ColumnId := String

/-- Modelled from the spec: the per-column test result, the pair of the
observed statistic and the two-sided empirical p-value. -/
structure TestResult where
  observed : ℚ
  pvalue : ℚ
deriving DecidableEq

/-- Modelled from the spec: the engine's error taxonomy,
`InvalidInputError` for malformed calls and `DegenerateGroupError` naming
the outcome column whose statistic is undefined. -/
inductive EngineError where
  | invalidInput
  | degenerateGroup (col : ColumnId)
deriving DecidableEq

/-- The statistic of one outcome column under each permuted labeling;
undefined if any round's statistic is undefined. -/
def statsFor (ys : List (Option ℚ)) : List (List Category) → Option (List ℚ)
  | [] => some []
  | p :: ps =>
    match stat p ys, statsFor ys ps with
    | some d, some ds => some (d :: ds)
    | _, _ => none

/-- Modelled from the spec: the two-sided empirical p-value, the count of
null-distribution values whose absolute value is at least the absolute
value of the observed statistic (inclusive, so exact ties count for the
null), divided by the number of permutations. -/
def pvalueOf (obs : ℚ) (nulls : List ℚ) (m : Nat) : ℚ :=
  ((nulls.countP (fun d => decide (|obs| ≤ |d|))) : ℚ) / (m : ℚ)

/-- Modelled from the spec: the result of one outcome column — observed
statistic, null distribution over the shared permutations, p-value —
failing with `DegenerateGroupError` naming the column when a group has
zero non-missing values. -/
def columnResult (perms : List (List Category)) (ls : List Category) (m : Nat)
    (cid : ColumnId) (ys : List (Option ℚ)) : Except EngineError TestResult :=
  match stat ls ys with
  | none => .error (.degenerateGroup cid)
  | some obs =>
    match statsFor ys perms with
    | none => .error (.degenerateGroup cid)
    | some nulls => .ok ⟨obs, pvalueOf obs nulls m⟩

/-- Fold the per-column results left to right, stopping at the first
failing column (no partial result mapping is ever produced). -/
def collectResults (perms : List (List Category)) (ls : List Category)
    (m : Nat) :
    List (ColumnId × List (Option ℚ)) →
      Except EngineError (List (ColumnId × TestResult))
  | [] => .ok []
  | c :: cs =>
    match columnResult perms ls m c.1 c.2 with
    | .error e => .error e
    | .ok r =>
      match collectResults perms ls m cs with
      | .error e => .error e
      | .ok rs => .ok ((c.1, r) :: rs)

/-- Modelled from the spec: the engine's `run` operation, which is not
present under `src/` (the notebook holds only the inline reference
demonstration).  It validates the inputs (binary labels, matching
lengths, at least one permutation, non-empty outcomes — else
`InvalidInputError`), draws one permutation of the label sequence per
round shared by all columns, and returns the per-column mapping of
observed statistic and two-sided inclusive p-value. -/
def run (labels : List RawLabel) (outcomes : List (ColumnId × List (Option ℚ)))
    (numPermutations : Nat) (g : Rng) :
    Except EngineError (List (ColumnId × TestResult)) :=
  match decodeLabels labels with
  | none => .error .invalidInput
  | some ls =>
    if numPermutations = 0 then .error .invalidInput
    else if outcomes.isEmpty then .error .invalidInput
    else if outcomes.any (fun c => decide (c.2.length ≠ ls.length)) then
      .error .invalidInput
    else collectResults (drawPerms g ls numPermutations) ls numPermutations
      outcomes

/-! ### Basic lemmas about label decoding -/

theorem decodeLabels_length : ∀ {labels : List RawLabel} {ls : List Category},
    decodeLabels labels = some ls → ls.length = labels.length := by
  intro labels
  induction labels with
  | nil => intro ls h; simp [decodeLabels] at h; subst h; rfl
  | cons a t ih =>
    intro ls h
    cases a <;> simp [decodeLabels] at h
    · obtain ⟨ls', h', rfl⟩ := h
      simp [ih h']
    · obtain ⟨ls', h', rfl⟩ := h
      simp [ih h']

theorem decodeLabels_none_of_other {labels : List RawLabel}
    (h : RawLabel.other ∈ labels) : decodeLabels labels = none := by
  induction labels with
  | nil => cases h
  | cons a t ih =>
    cases a with
    | other => rfl
    | A =>
      have ht : RawLabel.other ∈ t := by simpa using h
      simp [decodeLabels, ih ht]
    | B =>
      have ht : RawLabel.other ∈ t := by simpa using h
      simp [decodeLabels, ih ht]

theorem decodeLabels_map_swap : ∀ (labels : List RawLabel),
    decodeLabels (labels.map RawLabel.swap) =
      (decodeLabels labels).map (List.map Category.swap) := by
  intro labels
  induction labels with
  | nil => rfl
  | cons a t ih =>
    cases a <;>
      simp [decodeLabels, RawLabel.swap, ih, Option.map_map, Category.swap] <;>
      rfl

/-! ### The shuffle produces a permutation of its input -/

theorem cons_eraseIdx_perm : ∀ (l : List α) (i : Nat) (h : i < l.length),
    List.Perm (l[i] :: l.eraseIdx i) l
  | a :: t, 0, _ => by simp
  | a :: t, i + 1, h => by
    have h' : i < t.length := by simpa using h
    simp only [List.getElem_cons_succ, List.eraseIdx_cons_succ]
    exact (List.Perm.swap a (t[i]) (t.eraseIdx i)).trans
      (List.Perm.cons a (cons_eraseIdx_perm t i h'))

theorem shuffleN_perm : ∀ (n : Nat) (g : Rng) (l : List α), l.length = n →
    List.Perm (shuffleN g n l) l := by
  intro n
  induction n with
  | zero =>
    intro g l h
    rw [List.length_eq_zero] at h
    subst h
    exact List.Perm.refl _
  | succ n ih =>
    intro g l h
    have hpos : 0 < l.length := by omega
    have hlt : g 0 % l.length < l.length := Nat.mod_lt _ hpos
    have hget : l[g 0 % l.length]? = some (l[g 0 % l.length]) :=
      List.getElem?_eq_getElem hlt
    have hlen : (l.eraseIdx (g 0 % l.length)).length = n := by
      rw [List.length_eraseIdx, if_pos hlt]
      omega
    simp only [shuffleN, hget]
    exact (List.Perm.cons _ (ih (shiftRng g) _ hlen)).trans
      (cons_eraseIdx_perm l _ hlt)

theorem shuffle_perm (g : Rng) (l : List α) : List.Perm (shuffle g l) l :=
  shuffleN_perm l.length g l rfl

theorem drawPerms_length (g : Rng) (ls : List Category) :
    ∀ m, (drawPerms g ls m).length = m
  | 0 => rfl
  | n + 1 => by simp [drawPerms, drawPerms_length _ ls n]

theorem mem_drawPerms_perm : ∀ {g : Rng} {ls : List Category} {m : Nat}
    {p : List Category}, p ∈ drawPerms g ls m → List.Perm p ls := by
  intro g ls m
  induction m generalizing g with
  | zero => intro p hp; cases hp
  | succ n ih =>
    intro p hp
    rw [drawPerms] at hp
    cases hp with
    | head => exact shuffle_perm g ls
    | tail _ hp => exact ih hp

/-! ### The shuffle commutes with relabeling -/

theorem eraseIdx_map_comm (f : α → β) : ∀ (l : List α) (i : Nat),
    (l.map f).eraseIdx i = (l.eraseIdx i).map f
  | [], _ => rfl
  | _ :: _, 0 => rfl
  | a :: t, i + 1 => by
    simp only [List.map_cons, List.eraseIdx_cons_succ, eraseIdx_map_comm f t i]

theorem shuffleN_map (f : α → β) : ∀ (n : Nat) (g : Rng) (l : List α),
    shuffleN g n (l.map f) = (shuffleN g n l).map f := by
  intro n
  induction n with
  | zero => intro g l; rfl
  | succ n ih =>
    intro g l
    by_cases hl : l = []
    · subst hl; simp [shuffleN]
    · have hlt : g 0 % l.length < l.length :=
        Nat.mod_lt _ (List.length_pos.mpr hl)
      have hget : l[g 0 % l.length]? = some (l[g 0 % l.length]) :=
        List.getElem?_eq_getElem hlt
      simp only [shuffleN, List.length_map, List.getElem?_map, hget,
        Option.map_some', eraseIdx_map_comm, ih, List.map_cons]

theorem shuffle_map (f : α → β) (g : Rng) (l : List α) :
    shuffle g (l.map f) = (shuffle g l).map f := by
  unfold shuffle
  rw [List.length_map]
  exact shuffleN_map f l.length g l

theorem drawPerms_map_swap : ∀ (m : Nat) (g : Rng) (ls : List Category),
    drawPerms g (ls.map Category.swap) m =
      (drawPerms g ls m).map (List.map Category.swap) := by
  intro m
  induction m with
  | zero => intro g ls; rfl
  | succ n ih =>
    intro g ls
    simp only [drawPerms, shuffle_map, List.length_map, List.map_cons, ih]

/-! ### The statistic under a label swap -/

theorem groupVals_map_swap (c : Category) : ∀ (ls : List Category)
    (ys : List (Option ℚ)),
    groupVals c (ls.map Category.swap) ys = groupVals c.swap ls ys := by
  intro ls
  induction ls with
  | nil => intro ys; rfl
  | cons a t ih =>
    intro ys
    cases ys with
    | nil => rfl
    | cons y ts =>
      cases a <;> cases c <;> cases y <;>
        simp [groupVals, Category.swap, ih ts] <;>
        simpa [groupVals] using ih ts

theorem stat_map_swap (ls : List Category) (ys : List (Option ℚ)) :
    stat (ls.map Category.swap) ys = (stat ls ys).map (fun d => -d) := by
  unfold stat
  rw [groupVals_map_swap, groupVals_map_swap]
  show (match mean (groupVals Category.B ls ys),
      mean (groupVals Category.A ls ys) with
    | some a, some b => some (a - b)
    | _, _ => none) = _
  cases mean (groupVals Category.B ls ys) <;>
    cases mean (groupVals Category.A ls ys) <;>
    simp [neg_sub]

/-! ### The per-column null distribution -/

theorem statsFor_length {ys : List (Option ℚ)} :
    ∀ {ps : List (List Category)} {ns : List ℚ},
      statsFor ys ps = some ns → ns.length = ps.length := by
  intro ps
  induction ps with
  | nil =>
    intro ns h
    simp [statsFor] at h
    subst h; rfl
  | cons p pt ih =>
    intro ns h
    unfold statsFor at h
    cases hs : stat p ys <;> rw [hs] at h
    · exact absurd h (by simp)
    · cases ht : statsFor ys pt <;> rw [ht] at h
      · exact absurd h (by simp)
      · simp at h
        subst h
        simp [ih ht]

theorem statsFor_getElem {ys : List (Option ℚ)} :
    ∀ {ps : List (List Category)} {ns : List ℚ},
      statsFor ys ps = some ns →
      ∀ (i : Nat) (p : List Category), ps[i]? = some p →
        stat p ys = ns[i]? := by
  intro ps
  induction ps with
  | nil =>
    intro ns _ i p hp
    simp at hp
  | cons q pt ih =>
    intro ns h i p hp
    unfold statsFor at h
    cases hs : stat q ys <;> rw [hs] at h
    · exact absurd h (by simp)
    · cases ht : statsFor ys pt <;> rw [ht] at h
      · exact absurd h (by simp)
      · simp at h
        subst h
        cases i with
        | zero =>
          simp at hp
          subst hp
          simpa using hs
        | succ i =>
          simp at hp ⊢
          exact ih ht i p hp

theorem statsFor_map_swap (ys : List (Option ℚ)) :
    ∀ (ps : List (List Category)),
      statsFor ys (ps.map (List.map Category.swap)) =
        (statsFor ys ps).map (List.map (fun d => -d)) := by
  intro ps
  induction ps with
  | nil => rfl
  | cons p pt ih =>
    simp only [List.map_cons]
    unfold statsFor
    rw [stat_map_swap, ih]
    cases stat p ys <;> cases statsFor ys pt <;> simp

/-! ### The p-value computation -/

theorem pvalueOf_nonneg (obs : ℚ) (nulls : List ℚ) (m : Nat) :
    0 ≤ pvalueOf obs nulls m :=
  div_nonneg (Nat.cast_nonneg _) (Nat.cast_nonneg _)

theorem pvalueOf_le_one {obs : ℚ} {nulls : List ℚ} {m : Nat}
    (h : nulls.length = m) (hm : m ≠ 0) : pvalueOf obs nulls m ≤ 1 := by
  unfold pvalueOf
  rw [div_le_one (by exact_mod_cast Nat.pos_of_ne_zero hm)]
  exact_mod_cast (List.countP_le_length _).trans (le_of_eq h)

theorem pvalueOf_neg (obs : ℚ) (nulls : List ℚ) (m : Nat) :
    pvalueOf (-obs) (nulls.map (fun d => -d)) m = pvalueOf obs nulls m := by
  unfold pvalueOf
  rw [List.countP_map]
  simp [Function.comp_def, abs_neg]

/-! ### Per-column results -/

theorem columnResult_ok {perms : List (List Category)} {ls : List Category}
    {m : Nat} {cid : ColumnId} {ys : List (Option ℚ)} {r : TestResult}
    (h : columnResult perms ls m cid ys = .ok r) :
    ∃ obs nulls, stat ls ys = some obs ∧ statsFor ys perms = some nulls ∧
      r = ⟨obs, pvalueOf obs nulls m⟩ := by
  unfold columnResult at h
  cases hs : stat ls ys <;> rw [hs] at h
  · exact absurd h (by simp)
  · cases hn : statsFor ys perms <;> rw [hn] at h
    · exact absurd h (by simp)
    · simp at h
      exact ⟨_, _, rfl, rfl, h.symm⟩

theorem columnResult_map_swap (perms : List (List Category))
    (ls : List Category) (m : Nat) (cid : ColumnId) (ys : List (Option ℚ)) :
    columnResult (perms.map (List.map Category.swap)) (ls.map Category.swap)
        m cid ys =
      (columnResult perms ls m cid ys).map
        (fun r => ⟨-r.observed, r.pvalue⟩) := by
  unfold columnResult
  rw [stat_map_swap, statsFor_map_swap]
  cases stat ls ys <;> cases statsFor ys perms <;>
    simp [Except.map, pvalueOf_neg]

/-! ### Collecting results over the columns -/

theorem collectResults_ok_getElem {perms : List (List Category)}
    {ls : List Category} {m : Nat} :
    ∀ {cols : List (ColumnId × List (Option ℚ))}
      {rs : List (ColumnId × TestResult)},
      collectResults perms ls m cols = .ok rs →
      rs.length = cols.length ∧
        ∀ (i : Nat) (c : ColumnId × List (Option ℚ)), cols[i]? = some c →
          ∃ r, rs[i]? = some (c.1, r) ∧
            columnResult perms ls m c.1 c.2 = .ok r := by
  intro cols
  induction cols with
  | nil =>
    intro rs h
    simp [collectResults] at h
    subst h
    exact ⟨rfl, by intro i c hc; simp at hc⟩
  | cons c' ct ih =>
    intro rs h
    unfold collectResults at h
    cases hc : columnResult perms ls m c'.1 c'.2 <;> rw [hc] at h
    · exact absurd h (by simp)
    · cases ht : collectResults perms ls m ct <;> rw [ht] at h
      · exact absurd h (by simp)
      · simp at h
        subst h
        obtain ⟨hlen, hidx⟩ := ih ht
        refine ⟨by simp [hlen], ?_⟩
        intro i c hi
        cases i with
        | zero =>
          simp at hi
          subst hi
          exact ⟨_, by simp, hc⟩
        | succ i =>
          simp at hi ⊢
          exact hidx i c hi

theorem collectResults_error_first {perms : List (List Category)}
    {ls : List Category} {m : Nat} :
    ∀ {cols : List (ColumnId × List (Option ℚ))} {j : Nat}
      {c : ColumnId × List (Option ℚ)} {e : EngineError},
      cols[j]? = some c →
      columnResult perms ls m c.1 c.2 = .error e →
      (∀ (i : Nat) x, i < j → cols[i]? = some x →
        ∃ r, columnResult perms ls m x.1 x.2 = .ok r) →
      collectResults perms ls m cols = .error e := by
  intro cols
  induction cols with
  | nil =>
    intro j c e hj
    simp at hj
  | cons c' ct ih =>
    intro j c e hj herr hpre
    cases j with
    | zero =>
      simp at hj
      subst hj
      unfold collectResults
      rw [herr]
    | succ j =>
      obtain ⟨r, hr⟩ := hpre 0 c' (Nat.succ_pos j) (by simp)
      unfold collectResults
      rw [hr]
      simp only [List.getElem?_cons_succ] at hj
      rw [ih hj herr ?_]
      intro i x hi hx
      exact hpre (i + 1) x (Nat.succ_lt_succ hi) (by simpa using hx)

theorem collectResults_map_swap (perms : List (List Category))
    (ls : List Category) (m : Nat) :
    ∀ (cols : List (ColumnId × List (Option ℚ))),
      collectResults (perms.map (List.map Category.swap))
          (ls.map Category.swap) m cols =
        (collectResults perms ls m cols).map
          (List.map (fun p => (p.1, TestResult.mk (-p.2.observed)
            p.2.pvalue))) := by
  intro cols
  induction cols with
  | nil => rfl
  | cons c' ct ih =>
    unfold collectResults
    rw [columnResult_map_swap, ih]
    cases columnResult perms ls m c'.1 c'.2 <;>
      cases collectResults perms ls m ct <;>
      simp [Except.map]

/-! ### Unfolding and inverting `run` -/

theorem run_decode_none {labels : List RawLabel}
    {outcomes : List (ColumnId × List (Option ℚ))} {m : Nat} {g : Rng}
    (hdec : decodeLabels labels = none) :
    run labels outcomes m g = .error .invalidInput := by
  unfold run
  rw [hdec]

theorem run_decode_some {labels : List RawLabel} {ls : List Category}
    {outcomes : List (ColumnId × List (Option ℚ))} {m : Nat} {g : Rng}
    (hdec : decodeLabels labels = some ls) :
    run labels outcomes m g =
      if m = 0 then .error .invalidInput
      else if outcomes.isEmpty then .error .invalidInput
      else if outcomes.any (fun c => decide (c.2.length ≠ ls.length)) then
        .error .invalidInput
      else collectResults (drawPerms g ls m) ls m outcomes := by
  unfold run
  rw [hdec]

theorem run_ok_elim {labels : List RawLabel}
    {outcomes : List (ColumnId × List (Option ℚ))} {m : Nat} {g : Rng}
    {results : List (ColumnId × TestResult)}
    (h : run labels outcomes m g = .ok results) :
    ∃ ls, decodeLabels labels = some ls ∧ m ≠ 0 ∧
      collectResults (drawPerms g ls m) ls m outcomes = .ok results := by
  cases hdec : decodeLabels labels with
  | none => rw [run_decode_none hdec] at h; exact absurd h (by simp)
  | some ls =>
    rw [run_decode_some hdec] at h
    split_ifs at h with h1 h2 h3
    exact ⟨ls, rfl, h1, h⟩

theorem run_eq_collect {labels : List RawLabel} {ls : List Category}
    {outcomes : List (ColumnId × List (Option ℚ))} {m : Nat} (g : Rng)
    (hdec : decodeLabels labels = some ls) (hm : m ≠ 0)
    (hne : outcomes ≠ [])
    (hlen : ∀ c ∈ outcomes, c.2.length = ls.length) :
    run labels outcomes m g =
      collectResults (drawPerms g ls m) ls m outcomes := by
  rw [run_decode_some hdec, if_neg hm,
    if_neg (by simpa [List.isEmpty_iff] using hne), if_neg ?_]
  simp only [List.any_eq_true, not_exists, not_and]
  intro c hc
  simpa using hlen c hc

theorem run_map_swap (labels : List RawLabel)
    (outcomes : List (ColumnId × List (Option ℚ))) (m : Nat) (g : Rng) :
    run (labels.map RawLabel.swap) outcomes m g =
      (run labels outcomes m g).map
        (List.map (fun p => (p.1, TestResult.mk (-p.2.observed)
          p.2.pvalue))) := by
  unfold run
  rw [decodeLabels_map_swap]
  cases decodeLabels labels <;> simp only [Option.map_none', Option.map_some']
  · rfl
  · rw [List.length_map]
    split_ifs <;> simp [Except.map, drawPerms_map_swap,
      collectResults_map_swap]

/-! ### The claims -/

/-- C1: for every outcome column of a successful `run`, the returned
two-sided empirical p-value equals the count of null-distribution values
whose absolute value is greater than or equal to the absolute value of
that column's observed statistic, divided by the number of permutations;
the comparison is the inclusive `≤` on the observed side, so a permuted
statistic exactly equal in magnitude to the observed one is counted in
the numerator. -/
theorem pvalue_is_inclusive_count {labels : List RawLabel}
    {outcomes : List (ColumnId × List (Option ℚ))} {m : Nat} {g : Rng}
    {results : List (ColumnId × TestResult)} {ls : List Category}
    (j : Nat) {c : ColumnId × List (Option ℚ)}
    (hrun : run labels outcomes m g = .ok results)
    (hls : decodeLabels labels = some ls)
    (hj : outcomes[j]? = some c) :
    ∃ obs nulls,
      stat ls c.2 = some obs ∧
      statsFor c.2 (drawPerms g ls m) = some nulls ∧
      nulls.length = m ∧
      results[j]? = some (c.1,
        ⟨obs, ((nulls.countP (fun d => decide (|obs| ≤ |d|))) : ℚ) /
          (m : ℚ)⟩) := by
  obtain ⟨ls', hls', hm, hcol⟩ := run_ok_elim hrun
  rw [hls] at hls'
  injection hls' with he
  subst he
  obtain ⟨hlen, hidx⟩ := collectResults_ok_getElem hcol
  obtain ⟨r, hr, hcr⟩ := hidx j c hj
  obtain ⟨obs, nulls, hobs, hnulls, hre⟩ := columnResult_ok hcr
  subst hre
  exact ⟨obs, nulls, hobs, hnulls,
    (statsFor_length hnulls).trans (drawPerms_length g ls m), hr⟩

theorem pvalue_is_inclusive_count_witness :
    ∃ obs nulls,
      stat [Category.A, Category.B] [some 1, some 0] = some obs ∧
      statsFor [some 1, some 0]
        (drawPerms (fun _ => 0) [Category.A, Category.B] 1) = some nulls ∧
      nulls.length = 1 ∧
      ([(("y"), TestResult.mk 1 1)] :
          List (ColumnId × TestResult))[0]? = some (("y"),
        ⟨obs, ((nulls.countP (fun d => decide (|obs| ≤ |d|))) : ℚ) /
          ((1 : Nat) : ℚ)⟩) :=
  pvalue_is_inclusive_count 0
    ((by simp [run, decodeLabels, collectResults, columnResult,
        statsFor, stat, groupVals, mean, pvalueOf, drawPerms, shuffle,
        shuffleN, shiftRng, shiftRngBy]) :
      run [RawLabel.A, RawLabel.B] [(("y"), [some 1, some 0])] 1
          (fun _ => 0) =
        .ok [(("y"), TestResult.mk 1 1)])
    rfl rfl

/-- C2 counterexample: a fully valid input (binary labels, matching
lengths, one permutation, non-empty outcomes, no degenerate group) on
which `run` returns the p-value 0, which is strictly below the claimed
lower bound 1/num_permutations = 1: the single drawn permutation mixes
the two groups so its statistic has magnitude 0 < 3. -/
theorem pvalue_lower_bound_counterexample :
    run [RawLabel.A, RawLabel.A, RawLabel.B, RawLabel.B]
        [(("p"), [some 3, some 3, some 0, some 0])] 1 (fun _ => 1) =
      .ok [(("p"), TestResult.mk 3 0)] ∧
    ¬ ((1 : ℚ) / ((1 : Nat) : ℚ) ≤ (0 : ℚ)) := by
  constructor
  · simp [run, decodeLabels, collectResults, columnResult, statsFor,
      stat, groupVals, mean, pvalueOf, drawPerms, shuffle, shuffleN,
      shiftRng, shiftRngBy]
  · norm_num

/-- C2 (amended): for every valid input, every p-value returned by `run`
lies in the closed interval [0, 1]; the claimed lower bound
1/num_permutations does not hold in general, since every drawn
permutation may produce a statistic of strictly smaller magnitude than
the observed one, making the inclusive count — and hence the p-value —
exactly 0. -/
theorem pvalue_in_unit_interval {labels : List RawLabel}
    {outcomes : List (ColumnId × List (Option ℚ))} {m : Nat} {g : Rng}
    {results : List (ColumnId × TestResult)} {cid : ColumnId}
    {r : TestResult}
    (hrun : run labels outcomes m g = .ok results)
    (hmem : (cid, r) ∈ results) :
    0 ≤ r.pvalue ∧ r.pvalue ≤ 1 := by
  obtain ⟨ls, hls, hm, hcol⟩ := run_ok_elim hrun
  obtain ⟨hlen, hidx⟩ := collectResults_ok_getElem hcol
  obtain ⟨i, hi⟩ := List.mem_iff_getElem?.mp hmem
  have hilt : i < results.length := by
    obtain ⟨h, -⟩ := List.getElem?_eq_some.mp hi
    exact h
  have hioc : i < outcomes.length := hlen ▸ hilt
  obtain ⟨r', hr', hcr⟩ := hidx i outcomes[i] (List.getElem?_eq_getElem hioc)
  rw [hi] at hr'
  injection hr' with hp
  obtain ⟨obs, nulls, hobs, hnulls, hre⟩ := columnResult_ok hcr
  have hrr : r = ⟨obs, pvalueOf obs nulls m⟩ := by
    have := congrArg Prod.snd hp
    simpa [hre] using this
  have hnl : nulls.length = m :=
    (statsFor_length hnulls).trans (drawPerms_length g ls m)
  rw [hrr]
  exact ⟨pvalueOf_nonneg obs nulls m, pvalueOf_le_one hnl hm⟩

theorem pvalue_in_unit_interval_witness :
    0 ≤ (TestResult.mk 1 1).pvalue ∧ (TestResult.mk 1 1).pvalue ≤ 1 :=
  pvalue_in_unit_interval
    ((by simp [run, decodeLabels, collectResults, columnResult,
        statsFor, stat, groupVals, mean, pvalueOf, drawPerms, shuffle,
        shuffleN, shiftRng, shiftRngBy]) :
      run [RawLabel.A, RawLabel.B] [(("y"), [some 1, some 0])] 1
          (fun _ => 0) =
        .ok [(("y"), TestResult.mk 1 1)])
    ((by simp) :
      ((("y"), TestResult.mk 1 1) : ColumnId × TestResult) ∈
        [(("y"), TestResult.mk 1 1)])

/-- C3: on labels [A,A,A,B,B,B] and outcome [10,12,11,1,2,0], the
observed statistic is mean(10,12,11) − mean(1,2,0) = 10, and with one
permutation drawn from the all-zeros stream — which reproduces the
identity labeling — the returned two-sided p-value is 1. -/
theorem end_to_end_example :
    stat [Category.A, Category.A, Category.A, Category.B, Category.B,
        Category.B]
      [some 10, some 12, some 11, some 1, some 2, some 0] =
      some ((10 + 12 + 11) / 3 - (1 + 2 + 0) / 3) ∧
    ((10 + 12 + 11 : ℚ) / 3 - (1 + 2 + 0) / 3) = 10 ∧
    drawPerms (fun _ => 0) [Category.A, Category.A, Category.A,
        Category.B, Category.B, Category.B] 1 =
      [[Category.A, Category.A, Category.A, Category.B, Category.B,
        Category.B]] ∧
    run [RawLabel.A, RawLabel.A, RawLabel.A, RawLabel.B, RawLabel.B,
        RawLabel.B]
      [(("y"), [some 10, some 12, some 11, some 1, some 2, some 0])] 1
      (fun _ => 0) =
      .ok [(("y"), TestResult.mk 10 1)] := by
  refine ⟨?_, by norm_num, by rfl, ?_⟩
  · simp [stat, groupVals, mean]
    norm_num
  · simp [run, decodeLabels, collectResults, columnResult, statsFor,
      stat, groupVals, mean, pvalueOf, drawPerms, shuffle, shuffleN,
      shiftRng, shiftRngBy]
    norm_num

/-- C4: if, for some outcome column, one of the two groups has zero
non-missing values (so the column's statistic is undefined) and every
earlier column succeeds, `run` fails with `DegenerateGroupError` naming
that column; being an error, no partial result mapping is returned and
no undefined statistic is produced. -/
theorem degenerate_group_error {labels : List RawLabel} {ls : List Category}
    {outcomes : List (ColumnId × List (Option ℚ))} {m : Nat} {g : Rng}
    {j : Nat} {c : ColumnId × List (Option ℚ)}
    (hdec : decodeLabels labels = some ls) (hm : m ≠ 0)
    (hlen : ∀ x ∈ outcomes, x.2.length = ls.length)
    (hj : outcomes[j]? = some c)
    (hdeg : stat ls c.2 = none)
    (hpre : ∀ (i : Nat) x, i < j → outcomes[i]? = some x →
      ∃ r, columnResult (drawPerms g ls m) ls m x.1 x.2 = .ok r) :
    run labels outcomes m g = .error (.degenerateGroup c.1) := by
  have hne : outcomes ≠ [] := by
    intro h
    subst h
    simp at hj
  rw [run_eq_collect g hdec hm hne hlen]
  exact collectResults_error_first hj (by simp [columnResult, hdeg]) hpre

theorem degenerate_group_error_witness :
    run [RawLabel.A, RawLabel.B] [(("c"), [none, some 1])] 1 (fun _ => 0) =
      .error (.degenerateGroup ("c")) :=
  degenerate_group_error
    ((rfl) :
      decodeLabels [RawLabel.A, RawLabel.B] =
        some [Category.A, Category.B])
    (by decide)
    (by
      intro x hx
      simp at hx
      subst hx
      rfl)
    rfl
    ((rfl) : stat [Category.A, Category.B] [none, some 1] = none)
    (by
      intro i x hi
      exact absurd hi (Nat.not_lt_zero i))

/-- C5: `run` fails with `InvalidInputError` whenever some label is
neither A nor B, or some outcome sequence's length differs from the
label sequence's, or the permutation count is zero, or the outcomes
mapping is empty; in each case only the error is returned. -/
theorem invalid_input_rejected {labels : List RawLabel}
    {outcomes : List (ColumnId × List (Option ℚ))} {m : Nat} {g : Rng}
    (h : RawLabel.other ∈ labels ∨
      (∃ c ∈ outcomes, c.2.length ≠ labels.length) ∨ m = 0 ∨
      outcomes = []) :
    run labels outcomes m g = .error EngineError.invalidInput := by
  cases hdec : decodeLabels labels with
  | none => exact run_decode_none hdec
  | some ls =>
    rw [run_decode_some hdec]
    rcases h with h | h | h | h
    · rw [decodeLabels_none_of_other h] at hdec
      cases hdec
    · by_cases hm : m = 0
      · rw [if_pos hm]
      · rw [if_neg hm]
        obtain ⟨c, hc, hcl⟩ := h
        have hne : ¬(outcomes.isEmpty = true) := by
          cases outcomes with
          | nil => cases hc
          | cons a t => simp
        have hany :
            (outcomes.any fun x => decide (x.2.length ≠ ls.length)) =
              true := by
          rw [List.any_eq_true]
          exact ⟨c, hc, by simpa [decodeLabels_length hdec] using hcl⟩
        rw [if_neg hne, if_pos hany]
    · rw [if_pos h]
    · subst h
      by_cases hm : m = 0
      · rw [if_pos hm]
      · rw [if_neg hm]
        simp

theorem invalid_input_rejected_witness :
    run [RawLabel.A] [(("c"), [some 1])] 0 (lcgStream 0) =
      .error EngineError.invalidInput :=
  invalid_input_rejected (Or.inr (Or.inr (Or.inl rfl)))

/-- C6: in a batch run the engine draws one list of permuted label
vectors from the random stream — depending only on the labels, the
stream and the round count, not on any outcome column — of length
num_permutations, and the i-th null value of every outcome column is the
statistic of that same shared i-th permuted label vector applied to the
column's outcome values held fixed in their original positions. -/
theorem one_shuffle_shared_across_columns {g : Rng} {ls : List Category}
    {m : Nat} {ys₁ ys₂ : List (Option ℚ)} {ns₁ ns₂ : List ℚ}
    (h₁ : statsFor ys₁ (drawPerms g ls m) = some ns₁)
    (h₂ : statsFor ys₂ (drawPerms g ls m) = some ns₂) :
    ∃ perms : List (List Category),
      perms = drawPerms g ls m ∧ perms.length = m ∧
      ∀ (i : Nat) (p : List Category), perms[i]? = some p →
        stat p ys₁ = ns₁[i]? ∧ stat p ys₂ = ns₂[i]? :=
  ⟨drawPerms g ls m, rfl, drawPerms_length g ls m,
    fun i p hp => ⟨statsFor_getElem h₁ i p hp, statsFor_getElem h₂ i p hp⟩⟩

theorem one_shuffle_shared_across_columns_witness :
    ∃ perms : List (List Category),
      perms = drawPerms (fun _ => 0) [Category.A, Category.B] 1 ∧
      perms.length = 1 ∧
      ∀ (i : Nat) (p : List Category), perms[i]? = some p →
        stat p [some 1, some 0] = ([1] : List ℚ)[i]? ∧
        stat p [some 2, some 0] = ([2] : List ℚ)[i]? :=
  one_shuffle_shared_across_columns
    ((by simp [statsFor, stat, groupVals, mean, drawPerms, shuffle,
        shuffleN, shiftRng, shiftRngBy]) :
      statsFor [some 1, some 0]
          (drawPerms (fun _ => 0) [Category.A, Category.B] 1) =
        some [1])
    ((by simp [statsFor, stat, groupVals, mean, drawPerms, shuffle,
        shuffleN, shiftRng, shiftRngBy]) :
      statsFor [some 2, some 0]
          (drawPerms (fun _ => 0) [Category.A, Category.B] 1) =
        some [2])

/-- C7: for any input and any fixed random stream, swapping which
category is A and which is B negates the observed statistic of every
column (run-level equation, including identical error behaviour),
negates every value of every column's null distribution, and leaves
every returned two-sided p-value unchanged. -/
theorem label_swap_symmetry (labels : List RawLabel)
    (outcomes : List (ColumnId × List (Option ℚ))) (m : Nat) (g : Rng)
    (ls : List Category) (ys : List (Option ℚ)) :
    run (labels.map RawLabel.swap) outcomes m g =
      (run labels outcomes m g).map
        (List.map (fun p => (p.1, TestResult.mk (-p.2.observed)
          p.2.pvalue))) ∧
    stat (ls.map Category.swap) ys = (stat ls ys).map (fun d => -d) ∧
    statsFor ys (drawPerms g (ls.map Category.swap) m) =
      (statsFor ys (drawPerms g ls m)).map (List.map (fun d => -d)) ∧
    ∀ (obs : ℚ) (nulls : List ℚ),
      pvalueOf (-obs) (nulls.map (fun d => -d)) m = pvalueOf obs nulls m :=
  ⟨run_map_swap labels outcomes m g, stat_map_swap ls ys,
    by rw [drawPerms_map_swap, statsFor_map_swap],
    fun obs nulls => pvalueOf_neg obs nulls m⟩

/-- C8: `run` is deterministic — two invocations on equal labels, equal
outcomes, equal permutation counts and equal seeds of the pseudo-random
stream return identical results. -/
theorem run_deterministic {labels₁ labels₂ : List RawLabel}
    {outcomes₁ outcomes₂ : List (ColumnId × List (Option ℚ))}
    {m₁ m₂ : Nat} {seed₁ seed₂ : Nat}
    (hl : labels₁ = labels₂) (ho : outcomes₁ = outcomes₂)
    (hm : m₁ = m₂) (hs : seed₁ = seed₂) :
    run labels₁ outcomes₁ m₁ (lcgStream seed₁) =
      run labels₂ outcomes₂ m₂ (lcgStream seed₂) := by
  rw [hl, ho, hm, hs]

theorem run_deterministic_witness :
    run [RawLabel.A, RawLabel.B] [(("y"), [some 1, some 0])] 5
        (lcgStream 294) =
      run [RawLabel.A, RawLabel.B] [(("y"), [some 1, some 0])] 5
        (lcgStream 294) :=
  run_deterministic rfl rfl rfl rfl

/-- C9: for the same labels, permutation count and random stream, if two
outcome mappings agree on every column except the one at position j —
e.g. one value of one column was made missing — then the two successful
runs return identical results at every position other than j: a missing
value in one column leaves every other column's TestResult unchanged. -/
theorem missing_value_frame (j : Nat) {labels : List RawLabel}
    {outcomes outcomes' : List (ColumnId × List (Option ℚ))} {m : Nat}
    {g : Rng} {results results' : List (ColumnId × TestResult)}
    (hrun : run labels outcomes m g = .ok results)
    (hrun' : run labels outcomes' m g = .ok results')
    (hagree : ∀ k : Nat, k ≠ j → outcomes[k]? = outcomes'[k]?) :
    ∀ i : Nat, i ≠ j → results[i]? = results'[i]? := by
  obtain ⟨ls, hls, hm, hcol⟩ := run_ok_elim hrun
  obtain ⟨ls', hls', hm', hcol'⟩ := run_ok_elim hrun'
  rw [hls] at hls'
  injection hls' with he
  subst he
  obtain ⟨hlen, hidx⟩ := collectResults_ok_getElem hcol
  obtain ⟨hlen', hidx'⟩ := collectResults_ok_getElem hcol'
  intro i hi
  cases hc : outcomes[i]? with
  | some c =>
    have hc' : outcomes'[i]? = some c := by
      rw [← hagree i hi]
      exact hc
    obtain ⟨r, hr, hcr⟩ := hidx i c hc
    obtain ⟨r', hr', hcr'⟩ := hidx' i c hc'
    rw [hcr] at hcr'
    injection hcr' with he2
    rw [hr, hr', he2]
  | none =>
    have hle : outcomes.length ≤ i := List.getElem?_eq_none_iff.mp hc
    have hc' : outcomes'[i]? = none := by
      rw [← hagree i hi]
      exact hc
    have hle' : outcomes'.length ≤ i := List.getElem?_eq_none_iff.mp hc'
    rw [List.getElem?_eq_none (by rw [hlen]; exact hle),
      List.getElem?_eq_none (by rw [hlen']; exact hle')]

theorem missing_value_frame_witness :
    ([(("a"), TestResult.mk (3 / 2) 1), (("b"), TestResult.mk (9 / 2) 1)] :
        List (ColumnId × TestResult))[1]? =
      ([(("a"), TestResult.mk 1 1), (("b"), TestResult.mk (9 / 2) 1)] :
        List (ColumnId × TestResult))[1]? :=
  missing_value_frame 0
    ((by
      simp [run, decodeLabels, collectResults, columnResult, statsFor,
        stat, groupVals, mean, pvalueOf, drawPerms, shuffle, shuffleN,
        shiftRng, shiftRngBy]
      norm_num) :
      run [RawLabel.A, RawLabel.A, RawLabel.B, RawLabel.B]
          [(("a"), [some 1, some 2, some 0, some 0]),
            (("b"), [some 5, some 6, some 1, some 1])] 1 (fun _ => 0) =
        .ok [(("a"), TestResult.mk (3 / 2) 1),
          (("b"), TestResult.mk (9 / 2) 1)])
    ((by
      simp [run, decodeLabels, collectResults, columnResult, statsFor,
        stat, groupVals, mean, pvalueOf, drawPerms, shuffle, shuffleN,
        shiftRng, shiftRngBy]
      norm_num) :
      run [RawLabel.A, RawLabel.A, RawLabel.B, RawLabel.B]
          [(("a"), [some 1, none, some 0, some 0]),
            (("b"), [some 5, some 6, some 1, some 1])] 1 (fun _ => 0) =
        .ok [(("a"), TestResult.mk 1 1),
          (("b"), TestResult.mk (9 / 2) 1)])
    (by
      intro k hk
      cases k with
      | zero => exact absurd rfl hk
      | succ n =>
        cases n with
        | zero => rfl
        | succ n2 => rfl)
    1 (by decide)

/-- C10: every permuted label vector drawn in a run is a rearrangement
of the original label vector, so each round assigns exactly as many
observations to group A and to group B as the observed labeling does. -/
theorem permuted_labels_preserve_group_sizes {g : Rng} {ls : List Category}
    {m : Nat} {p : List Category} (hp : p ∈ drawPerms g ls m) :
    List.Perm p ls ∧ p.count Category.A = ls.count Category.A ∧
      p.count Category.B = ls.count Category.B :=
  ⟨mem_drawPerms_perm hp, (mem_drawPerms_perm hp).count_eq _,
    (mem_drawPerms_perm hp).count_eq _⟩

theorem permuted_labels_preserve_group_sizes_witness :
    List.Perm [Category.A, Category.B, Category.B, Category.A]
        [Category.A, Category.A, Category.B, Category.B] ∧
    [Category.A, Category.B, Category.B, Category.A].count Category.A =
      [Category.A, Category.A, Category.B, Category.B].count Category.A ∧
    [Category.A, Category.B, Category.B, Category.A].count Category.B =
      [Category.A, Category.A, Category.B, Category.B].count Category.B :=
  permuted_labels_preserve_group_sizes
    ((by decide) :
      [Category.A, Category.B, Category.B, Category.A] ∈
        drawPerms (fun _ => 1)
          [Category.A, Category.A, Category.B, Category.B] 1)

end PermTest
